import Mathlib

/-
Verification of the per-symbol refresh pipeline of the iVolatility
equities EOD IVS loader (src/main.py).

Shallow embedding conventions:
* External effects (the DELETE statement, the provider fetch, each chunked
  INSERT, the uuid4 random source) are modelled as an explicit `Oracle`
  describing the outcome of each external call made by one task.
* `fetch_and_insert_symbol` mirrors the Python function of the same name:
  a total function from the oracle and the work record to the task outcome.
  The Python function returns a bare int and reports errors through
  `logging.error`; the embedding returns `RefreshResult` whose `error`
  field is `some e` exactly on the branches where the source logs the
  caught exception `e` before returning, together with the trace of
  external calls the task performed.
* Dates are modelled as `Int` (the source compares ISO date strings, which
  order the same way), machine ints as `Nat`/`Int`.
-/

namespace IVS

/-- One record produced by `symbol_df.to_dict("records")`.  `region` is
`none` when the dict has no `region` key at all, and `some v` when the key
is present with value `v` (`v = none` models SQL NULL / NaN). -/
structure WorkItem where
  symbol : String
  region : Option (Option String)
deriving DecidableEq

/-- One provider row of the fetched DataFrame, after the renames that do
not concern these claims are folded into `payload`.  `recNo` is the
provider-supplied `record_no` value; it is meaningful only when the
enclosing table has the `record_no` column. -/
structure RawRow where
  date : Int
  recNo : Int
  payload : String
deriving DecidableEq

/-- The fetched DataFrame: its rows plus whether the `record_no` column is
present (column presence is a property of the whole frame). -/
structure RawTable where
  rows : List RawRow
  hasRecordNo : Bool
deriving DecidableEq

/-- A row shaped for the target table, restricted to the fields the claims
mention; the remaining value columns travel in `payload`. -/
structure TargetRow where
  symbol : String
  region : Option String
  date : Int
  record_no : Int
  payload : String
deriving DecidableEq

/-- The task outcome as the orchestrator sees it: the returned count, and
the error the task logged on its failure branch (if any). -/
structure RefreshResult where
  rowsWritten : Nat
  error : Option String
deriving DecidableEq

/-- External calls a task can perform, in program order. -/
inductive Action where
  | deleteA : Action
  | fetchA (region : Option String) : Action
  | insertA (chunkIdx : Nat) (size : Nat) : Action
deriving DecidableEq

/-- Outcomes of the external calls one task makes: the DELETE result, the
provider fetch result, the result of the k-th chunked INSERT, and the
value of `abs(hash(uuid.uuid4()))` on its i-th invocation. -/
structure Oracle where
  deleteRes : Except String Unit
  fetchRes : Except String RawTable
  chunkOk : Nat → Except String Unit
  draws : Nat → Int

/-- `record.get("region", default_region)` (src/main.py line 175): the
default is substituted only when the key is absent. -/
def getRegion (record : WorkItem) (default_region : Option String) : Option String :=
  match record.region with
  | none => default_region
  | some v => v

/-- `abs(hash(uuid.uuid4())) % 2147483647` (src/main.py line 221), with
the hash value `h` supplied by the random-source oracle. -/
def genRecordNo (h : Int) : Int :=
  ((h.natAbs % 2147483647 : Nat) : Int)

/-- Reconcile loop body (src/main.py lines 207-228): every output row gets
the forced `symbol` and `region`, keeps its date and payload, and gets a
`record_no` from the provider column when present, otherwise from the i-th
uuid4 hash draw. -/
def reconcileGo (sym : String) (reg : Option String) (hasRec : Bool)
    (draws : Nat → Int) : List RawRow → Nat → List TargetRow
  | [], _ => []
  | r :: rs, i =>
    { symbol := sym, region := reg, date := r.date,
      record_no := if hasRec then r.recNo else genRecordNo (draws i),
      payload := r.payload } :: reconcileGo sym reg hasRec draws rs (i + 1)

/-- The reconcile phase (src/main.py lines 207-228) applied to a fetched
table. -/
def reconcile (sym : String) (reg : Option String) (draws : Nat → Int)
    (t : RawTable) : List TargetRow :=
  reconcileGo sym reg t.hasRecordNo draws t.rows 0

/-- `chunk_size = 5000` (src/main.py line 231). -/
def chunk_size : Nat := 5000

/-- Chunk splitting as performed by
`for start_idx in range(0, len(data_df), chunk_size)` with
`data_df.iloc[start_idx : start_idx + chunk_size]` (src/main.py lines
234-235): peel `C` elements at a time.  `fuel` bounds the number of
chunks; `fuel = l.length` always suffices when `0 < C`. -/
def chunkGo (C : Nat) : Nat → List α → List (List α)
  | _, [] => []
  | 0, _ :: _ => []
  | fuel + 1, x :: xs => ((x :: xs).take C) :: chunkGo C fuel ((x :: xs).drop C)

/-- The list of chunks of `l` of size at most `C`, in order. -/
def chunkList (C : Nat) (l : List α) : List (List α) :=
  chunkGo C l.length l

/-- Result of the chunked-insert loop: the accumulated `inserted_count`,
the logged error of the failing chunk (if any), the chunks whose INSERT
committed, and the INSERT attempts made. -/
structure LoadOut where
  written : Nat
  error : Option String
  committed : List (List TargetRow)
  attempts : List Action
deriving DecidableEq

/-- The chunked-insert loop (src/main.py lines 234-249) over an explicit
chunk list, `k` being the ordinal of the next chunk: on success the chunk
size is added to the count and the loop continues; on failure the loop
stops at once and the count so far is returned. -/
def loadGo (ok : Nat → Except String Unit) : List (List TargetRow) → Nat → LoadOut
  | [], _ => ⟨0, none, [], []⟩
  | c :: cs, k =>
    match ok k with
    | .error e => ⟨0, some e, [], [.insertA k c.length]⟩
    | .ok _ =>
      let r := loadGo ok cs (k + 1)
      ⟨c.length + r.written, r.error, c :: r.committed, .insertA k c.length :: r.attempts⟩

/-- The load phase (src/main.py lines 230-249): split into chunks of
`chunk_size` and run the insert loop. -/
def load (ok : Nat → Except String Unit) (rows : List TargetRow) : LoadOut :=
  loadGo ok (chunkList chunk_size rows) 0

/-- `fetch_and_insert_symbol` (src/main.py lines 167-249).  Returns the
task outcome and the trace of external calls:
* delete failure: log + `return 0` (line 185), nothing else attempted;
* fetch failure: log + `return 0` (line 201);
* empty fetch: log + `return 0` (line 205), no error logged;
* otherwise reconcile and run the chunked-insert loop, returning its
  count (lines 247, 249). -/
def fetch_and_insert_symbol (default_region : Option String) (o : Oracle)
    (record : WorkItem) : RefreshResult × List Action :=
  let sym := record.symbol
  let reg := getRegion record default_region
  match o.deleteRes with
  | .error dex => (⟨0, some dex⟩, [.deleteA])
  | .ok _ =>
    match o.fetchRes with
    | .error fex => (⟨0, some fex⟩, [.deleteA, .fetchA reg])
    | .ok t =>
      if t.rows.isEmpty then
        (⟨0, none⟩, [.deleteA, .fetchA reg])
      else
        let out := load o.chunkOk (reconcile sym reg o.draws t)
        (⟨out.written, out.error⟩, .deleteA :: .fetchA reg :: out.attempts)

/-- First error among the chunk writes `k, k+1, ...` limited to `n`
attempts, in program order. -/
def firstChunkErrGo (ok : Nat → Except String Unit) : Nat → Nat → Option String
  | 0, _ => none
  | n + 1, k =>
    match ok k with
    | .error e => some e
    | .ok _ => firstChunkErrGo ok (n) (k + 1)

/-- Modelled from the spec (section 4.2, failure semantics): the first
exception any external call of the task raises, in program order — the
spec requires the task to capture exactly this error inside its returned
result instead of propagating it. -/
def specCapturedError (default_region : Option String) (o : Oracle)
    (record : WorkItem) : Option String :=
  match o.deleteRes with
  | .error e => some e
  | .ok _ =>
    match o.fetchRes with
    | .error e => some e
    | .ok t =>
      if t.rows.isEmpty then none
      else
        firstChunkErrGo o.chunkOk
          (chunkList chunk_size
            (reconcile record.symbol (getRegion record default_region) o.draws t)).length 0

/-- The orchestrator accumulation loop (src/main.py lines 252-265):
`total_inserted` starts at 0; for each completed future, a normal return
adds its count, a raised exception is caught and adds nothing, and the
loop continues either way. -/
def total_inserted (outcomes : List (Except String RefreshResult)) : Nat :=
  outcomes.foldl
    (fun acc r =>
      match r with
      | .ok res => acc + res.rowsWritten
      | .error _ => acc) 0

/-- The DELETE statement (src/main.py lines 143-148) on a modelled store:
remove the rows of the symbol whose date falls in the window. -/
def deleteRows (sym : String) (date_from date_to : Int)
    (store : List TargetRow) : List TargetRow :=
  store.filter fun r =>
    !(r.symbol == sym && decide (date_from ≤ r.date) && decide (r.date ≤ date_to))

/-- One successful per-symbol refresh (delete, fetch response `t`,
reconcile, load with every chunk write succeeding) as a transformer of the
modelled store; returns the new store and the count the task returns. -/
def refreshStore (sym : String) (reg : Option String) (date_from date_to : Int)
    (t : RawTable) (draws : Nat → Int) (store : List TargetRow) :
    List TargetRow × Nat :=
  let store1 := deleteRows sym date_from date_to store
  if t.rows.isEmpty then (store1, 0)
  else
    let out := load (fun _ => Except.ok ()) (reconcile sym reg draws t)
    (store1 ++ out.committed.flatten, out.written)

/-- Per-symbol contribution to the total as the orchestrator loop computes
it: the returned count of a task that returned, 0 for a task whose future
raised. -/
def contribution (r : Except String RefreshResult) : Nat :=
  match r with
  | .ok res => res.rowsWritten
  | .error _ => 0

/-- Sample provider row used by concrete witnesses. -/
def rawA : RawRow := ⟨0, 7, "p"⟩

/-- Sample target row used by concrete witnesses. -/
def rowA : TargetRow := ⟨"A", some "USA", 0, 7, "p"⟩

/-- Sample work record whose dict has no `region` key. -/
def wiA : WorkItem := ⟨"A", none⟩

/-- Sample work record whose dict has a `region` key holding NULL. -/
def wiNull : WorkItem := ⟨"A", some none⟩

/-- Oracle whose DELETE fails. -/
def oDeleteFail : Oracle :=
  ⟨Except.error "boom", Except.ok ⟨[rawA], true⟩, fun _ => Except.ok (), fun _ => 0⟩

/-- Oracle whose fetch fails. -/
def oFetchFail : Oracle :=
  ⟨Except.ok (), Except.error "net", fun _ => Except.ok (), fun _ => 0⟩

/-- Oracle whose fetch returns zero rows. -/
def oEmpty : Oracle :=
  ⟨Except.ok (), Except.ok ⟨[], true⟩, fun _ => Except.ok (), fun _ => 0⟩

/-- Oracle for a fully successful one-row refresh. -/
def oOk1 : Oracle :=
  ⟨Except.ok (), Except.ok ⟨[rawA], true⟩, fun _ => Except.ok (), fun _ => 0⟩

/-- Oracle for a 5001-row fetch whose second chunk INSERT fails. -/
def oMid : Oracle :=
  ⟨Except.ok (), Except.ok ⟨rawA :: List.replicate 5000 rawA, true⟩,
    fun k => if k = 0 then Except.ok () else Except.error "boom", fun _ => 0⟩

/-- The number of rows the provider fetch returned (0 when the fetch
raised). -/
def fetchedCount (o : Oracle) : Nat :=
  match o.fetchRes with
  | .ok t => t.rows.length
  | .error _ => 0

theorem chunkGo_nil (C f : Nat) : chunkGo C f ([] : List α) = [] := by
  cases f <;> rfl

theorem chunkGo_fuel (C : Nat) (hC : 0 < C) :
    ∀ (f1 f2 : Nat) (l : List α), l.length ≤ f1 → l.length ≤ f2 →
      chunkGo C f1 l = chunkGo C f2 l := by
  intro f1
  induction f1 with
  | zero =>
    intro f2 l h1 _
    cases l with
    | nil => simp [chunkGo_nil]
    | cons x xs => simp at h1
  | succ f ih =>
    intro f2 l h1 h2
    cases l with
    | nil => simp [chunkGo_nil]
    | cons x xs =>
      cases f2 with
      | zero => simp at h2
      | succ f2 =>
        show ((x :: xs).take C) :: chunkGo C f ((x :: xs).drop C)
            = ((x :: xs).take C) :: chunkGo C f2 ((x :: xs).drop C)
        congr 1
        apply ih
        · rw [List.length_drop]; simp at h1 ⊢; omega
        · rw [List.length_drop]; simp at h2 ⊢; omega

theorem chunkList_nil (C : Nat) : chunkList C ([] : List α) = [] := rfl

theorem chunkList_cons (C : Nat) (hC : 0 < C) (x : α) (xs : List α) :
    chunkList C (x :: xs) = ((x :: xs).take C) :: chunkList C ((x :: xs).drop C) := by
  show ((x :: xs).take C) :: chunkGo C xs.length ((x :: xs).drop C)
      = ((x :: xs).take C) :: chunkGo C ((x :: xs).drop C).length ((x :: xs).drop C)
  congr 1
  apply chunkGo_fuel C hC
  · rw [List.length_drop]; simp; omega
  · exact Nat.le_refl _

theorem chunkGo_flatten (C : Nat) (hC : 0 < C) :
    ∀ (f : Nat) (l : List α), l.length ≤ f → (chunkGo C f l).flatten = l := by
  intro f
  induction f with
  | zero =>
    intro l h
    cases l with
    | nil => rfl
    | cons x xs => simp at h
  | succ f ih =>
    intro l h
    cases l with
    | nil => rfl
    | cons x xs =>
      show (((x :: xs).take C) :: chunkGo C f ((x :: xs).drop C)).flatten = x :: xs
      rw [List.flatten_cons, ih _ (by rw [List.length_drop]; simp at h ⊢; omega)]
      exact List.take_append_drop C (x :: xs)

theorem chunkList_flatten (C : Nat) (hC : 0 < C) (l : List α) :
    (chunkList C l).flatten = l :=
  chunkGo_flatten C hC l.length l (Nat.le_refl _)

theorem chunkList_sum_sizes (C : Nat) (hC : 0 < C) (l : List α) :
    ((chunkList C l).map List.length).sum = l.length := by
  rw [← List.length_flatten, chunkList_flatten C hC]

theorem ceil_step (C n : Nat) (hC : 0 < C) (hn : 0 < n) :
    (n - C + C - 1) / C + 1 = (n + C - 1) / C := by
  rcases le_or_lt n C with h | h
  · have h1 : n - C = 0 := by omega
    have h2 : n + C - 1 = (n - 1) + C := by omega
    rw [h1, h2, Nat.add_div_right _ hC]
    have h3 : (n - 1) / C = 0 := Nat.div_eq_of_lt (by omega)
    have h4 : (0 + C - 1) / C = 0 := Nat.div_eq_of_lt (by omega)
    omega
  · have h1 : n - C + C - 1 = (n - C - 1) + C := by omega
    have h2 : n + C - 1 = (n - 1) + C := by omega
    have h3 : n - 1 = (n - C - 1) + C := by omega
    rw [h1, h2, Nat.add_div_right _ hC, Nat.add_div_right _ hC, h3,
      Nat.add_div_right _ hC]

theorem chunkGo_length_eq (C : Nat) (hC : 0 < C) :
    ∀ (f : Nat) (l : List α), l.length ≤ f →
      (chunkGo C f l).length = (l.length + C - 1) / C := by
  intro f
  induction f with
  | zero =>
    intro l h
    cases l with
    | nil =>
      simp only [chunkGo_nil, List.length_nil]
      exact (Nat.div_eq_of_lt (by omega)).symm
    | cons x xs => simp at h
  | succ f ih =>
    intro l h
    cases l with
    | nil =>
      simp only [chunkGo_nil, List.length_nil]
      exact (Nat.div_eq_of_lt (by omega)).symm
    | cons x xs =>
      show (((x :: xs).take C) :: chunkGo C f ((x :: xs).drop C)).length = _
      rw [List.length_cons, ih _ (by rw [List.length_drop]; simp at h ⊢; omega),
        List.length_drop]
      exact ceil_step C (x :: xs).length hC (by simp)

theorem chunkList_length (C : Nat) (hC : 0 < C) (l : List α) :
    (chunkList C l).length = (l.length + C - 1) / C :=
  chunkGo_length_eq C hC l.length l (Nat.le_refl _)

theorem chunkGo_sizes (C : Nat) :
    ∀ (f : Nat) (l : List α), ∀ c ∈ chunkGo C f l, c.length ≤ C := by
  intro f
  induction f with
  | zero =>
    intro l c hc
    cases l with
    | nil => simp [chunkGo_nil] at hc
    | cons x xs => simp [show chunkGo C 0 (x :: xs) = [] from rfl] at hc
  | succ f ih =>
    intro l c hc
    cases l with
    | nil => simp [chunkGo_nil] at hc
    | cons x xs =>
      rw [show chunkGo C (f + 1) (x :: xs)
          = ((x :: xs).take C) :: chunkGo C f ((x :: xs).drop C) from rfl] at hc
      rcases List.mem_cons.mp hc with h | h
      · subst h; rw [List.length_take]; exact Nat.min_le_left _ _
      · exact ih _ _ h

theorem chunkList_sizes (C : Nat) (l : List α) :
    ∀ c ∈ chunkList C l, c.length ≤ C :=
  chunkGo_sizes C l.length l

theorem chunkGo_mem_ne_nil (C : Nat) (hC : 0 < C) :
    ∀ (f : Nat) (l : List α), ∀ c ∈ chunkGo C f l, c ≠ [] := by
  intro f
  induction f with
  | zero =>
    intro l c hc
    cases l with
    | nil => simp [chunkGo_nil] at hc
    | cons x xs => simp [show chunkGo C 0 (x :: xs) = [] from rfl] at hc
  | succ f ih =>
    intro l c hc
    cases l with
    | nil => simp [chunkGo_nil] at hc
    | cons x xs =>
      rw [show chunkGo C (f + 1) (x :: xs)
          = ((x :: xs).take C) :: chunkGo C f ((x :: xs).drop C) from rfl] at hc
      rcases List.mem_cons.mp hc with h | h
      · subst h
        apply List.length_pos.mp
        rw [List.length_take]
        exact lt_min hC (Nat.succ_pos _)
      · exact ih _ _ h

theorem chunkGo_dropLast_sizes (C : Nat) (hC : 0 < C) :
    ∀ (f : Nat) (l : List α), l.length ≤ f →
      ∀ c ∈ (chunkGo C f l).dropLast, c.length = C := by
  intro f
  induction f with
  | zero =>
    intro l h c hc
    cases l with
    | nil => simp [chunkGo_nil] at hc
    | cons x xs => simp at h
  | succ f ih =>
    intro l h c hc
    cases l with
    | nil => simp [chunkGo_nil] at hc
    | cons x xs =>
      rw [show chunkGo C (f + 1) (x :: xs)
          = ((x :: xs).take C) :: chunkGo C f ((x :: xs).drop C) from rfl] at hc
      cases hrest : chunkGo C f ((x :: xs).drop C) with
      | nil => rw [hrest] at hc; simp [List.dropLast] at hc
      | cons r rs =>
        rw [hrest, List.dropLast_cons₂] at hc
        rcases List.mem_cons.mp hc with h1 | h1
        · subst h1
          have hd : (x :: xs).drop C ≠ [] := by
            intro hnil
            rw [hnil, chunkGo_nil] at hrest
            exact (List.cons_ne_nil r rs) hrest.symm
          have hlen : C < (x :: xs).length := by
            have hp := List.length_pos.mpr hd
            rw [List.length_drop] at hp
            omega
          rw [List.length_take]
          exact Nat.min_eq_left (Nat.le_of_lt hlen)
        · rw [← hrest] at h1
          exact ih _ (by rw [List.length_drop]; simp at h ⊢; omega) _ h1

theorem chunkList_dropLast_sizes (C : Nat) (hC : 0 < C) (l : List α) :
    ∀ c ∈ (chunkList C l).dropLast, c.length = C :=
  chunkGo_dropLast_sizes C hC l.length l (Nat.le_refl _)

theorem loadGo_allok (ok : Nat → Except String Unit)
    (hok : ∀ j, ok j = Except.ok ()) :
    ∀ (cs : List (List TargetRow)) (b : Nat),
      (loadGo ok cs b).written = (cs.map List.length).sum ∧
      (loadGo ok cs b).error = none ∧
      (loadGo ok cs b).committed = cs := by
  intro cs
  induction cs with
  | nil => intro b; exact ⟨rfl, rfl, rfl⟩
  | cons c cs ih =>
    intro b
    obtain ⟨h1, h2, h3⟩ := ih (b + 1)
    refine ⟨?_, ?_, ?_⟩ <;> simp [loadGo, hok b, h1, h2, h3]

theorem loadGo_firstfail (ok : Nat → Except String Unit) :
    ∀ (k : Nat) (cs : List (List TargetRow)) (b : Nat) (e : String),
      k < cs.length → (∀ j, j < k → ok (b + j) = Except.ok ()) →
      ok (b + k) = Except.error e →
      (loadGo ok cs b).written = ((cs.take k).map List.length).sum ∧
      (loadGo ok cs b).error = some e ∧
      (loadGo ok cs b).committed = cs.take k := by
  intro k
  induction k with
  | zero =>
    intro cs b e hk hj hf
    cases cs with
    | nil => simp at hk
    | cons c cs =>
      rw [Nat.add_zero] at hf
      refine ⟨?_, ?_, ?_⟩ <;> simp [loadGo, hf]
  | succ k ih =>
    intro cs b e hk hj hf
    cases cs with
    | nil => simp at hk
    | cons c cs =>
      have hb : ok b = Except.ok () := by
        have h0 := hj 0 (Nat.succ_pos k)
        rwa [Nat.add_zero] at h0
      have ih2 := ih cs (b + 1) e (by simp at hk; omega)
        (by
          intro j hjk
          have hs := hj (j + 1) (by omega)
          rw [show b + 1 + j = b + (j + 1) from by omega]
          exact hs)
        (by
          rw [show b + 1 + k = b + (k + 1) from by omega]
          exact hf)
      obtain ⟨h1, h2, h3⟩ := ih2
      refine ⟨?_, ?_, ?_⟩ <;> simp [loadGo, hb, h1, h2, h3]

theorem loadGo_written_le (ok : Nat → Except String Unit) :
    ∀ (cs : List (List TargetRow)) (b : Nat),
      (loadGo ok cs b).written ≤ (cs.map List.length).sum := by
  intro cs
  induction cs with
  | nil => intro b; exact Nat.le_refl 0
  | cons c cs ih =>
    intro b
    cases h : ok b with
    | error e => simp [loadGo, h]
    | ok u =>
      have hle := ih (b + 1)
      simp [loadGo, h]
      omega

theorem loadGo_error_eq (ok : Nat → Except String Unit) :
    ∀ (cs : List (List TargetRow)) (b : Nat),
      (loadGo ok cs b).error = firstChunkErrGo ok cs.length b := by
  intro cs
  induction cs with
  | nil => intro b; rfl
  | cons c cs ih =>
    intro b
    cases h : ok b with
    | error e => simp [loadGo, firstChunkErrGo, h]
    | ok u => simp [loadGo, firstChunkErrGo, h, ih (b + 1)]

theorem reconcileGo_length (sym : String) (reg : Option String) (hasRec : Bool)
    (draws : Nat → Int) :
    ∀ (l : List RawRow) (i : Nat),
      (reconcileGo sym reg hasRec draws l i).length = l.length := by
  intro l
  induction l with
  | nil => intro i; rfl
  | cons r rs ih => intro i; simp [reconcileGo, ih (i + 1)]

theorem reconcile_length (sym : String) (reg : Option String) (draws : Nat → Int)
    (t : RawTable) : (reconcile sym reg draws t).length = t.rows.length :=
  reconcileGo_length sym reg t.hasRecordNo draws t.rows 0

theorem reconcileGo_mem (sym : String) (reg : Option String) (hasRec : Bool)
    (draws : Nat → Int) :
    ∀ (l : List RawRow) (i : Nat),
      ∀ row ∈ reconcileGo sym reg hasRec draws l i,
        row.symbol = sym ∧ row.region = reg ∧ ∃ raw ∈ l, row.date = raw.date := by
  intro l
  induction l with
  | nil => intro i row hrow; simp [reconcileGo] at hrow
  | cons r rs ih =>
    intro i row hrow
    rcases List.mem_cons.mp hrow with h | h
    · subst h
      exact ⟨rfl, rfl, r, List.mem_cons_self r rs, rfl⟩
    · obtain ⟨h1, h2, raw, hraw, h3⟩ := ih (i + 1) row h
      exact ⟨h1, h2, raw, List.mem_cons_of_mem r hraw, h3⟩

theorem reconcileGo_hasRec (sym : String) (reg : Option String)
    (d1 d2 : Nat → Int) :
    ∀ (l : List RawRow) (i1 i2 : Nat),
      reconcileGo sym reg true d1 l i1 = reconcileGo sym reg true d2 l i2 := by
  intro l
  induction l with
  | nil => intro i1 i2; rfl
  | cons r rs ih => intro i1 i2; simp [reconcileGo, ih (i1 + 1) (i2 + 1)]

theorem filter_self_filter (p : α → Bool) :
    ∀ l : List α, (l.filter p).filter p = l.filter p := by
  intro l
  induction l with
  | nil => rfl
  | cons x xs ih =>
    cases h : p x with
    | false => simp [List.filter_cons, h, ih]
    | true => simp [List.filter_cons, h, ih]

theorem total_inserted_go :
    ∀ (outs : List (Except String RefreshResult)) (acc : Nat),
      outs.foldl
        (fun acc r =>
          match r with
          | .ok res => acc + res.rowsWritten
          | .error _ => acc) acc
      = acc + total_inserted outs := by
  intro outs
  induction outs with
  | nil => intro acc; simp [total_inserted]
  | cons r outs ih =>
    intro acc
    cases r with
    | ok res =>
      show List.foldl _ (acc + res.rowsWritten) outs = _
      rw [ih (acc + res.rowsWritten)]
      have h0 : total_inserted (Except.ok res :: outs)
          = res.rowsWritten + total_inserted outs := by
        show List.foldl _ (0 + res.rowsWritten) outs = _
        rw [ih (0 + res.rowsWritten)]
        omega
      omega
    | error e =>
      show List.foldl _ acc outs = _
      rw [ih acc]
      have h0 : total_inserted (Except.error e :: outs) = total_inserted outs := by
        show List.foldl _ 0 outs = _
        rfl
      omega

theorem total_inserted_eq_sum (outs : List (Except String RefreshResult)) :
    total_inserted outs = (outs.map contribution).sum := by
  induction outs with
  | nil => rfl
  | cons r outs ih =>
    cases r with
    | ok res =>
      show List.foldl _ (0 + res.rowsWritten) outs = _
      rw [total_inserted_go outs (0 + res.rowsWritten)]
      simp [contribution, ih]
    | error e =>
      show List.foldl _ 0 outs = _
      simp [contribution]
      exact ih

/-- C1: for a row set of size N and chunk size C = 5000, a load in which
every chunk write succeeds splits the rows into ceil(N/C) ordered,
non-overlapping chunks (flattening the chunk list in order restores the
rows), each of size at most C and all of size exactly C except possibly
the last, and returns written = N with no error. -/
theorem chunk_accounting (ok : Nat → Except String Unit) (rows : List TargetRow)
    (hok : ∀ j, ok j = Except.ok ()) :
    chunk_size = 5000 ∧
    (load ok rows).written = rows.length ∧
    (load ok rows).error = none ∧
    (chunkList chunk_size rows).flatten = rows ∧
    (chunkList chunk_size rows).length
      = (rows.length + chunk_size - 1) / chunk_size ∧
    ((chunkList chunk_size rows).all fun c => decide (c.length ≤ chunk_size)) = true ∧
    ((chunkList chunk_size rows).dropLast.all fun c => c.length == chunk_size) = true := by
  have hC : 0 < chunk_size := by decide
  obtain ⟨h1, h2, h3⟩ := loadGo_allok ok hok (chunkList chunk_size rows) 0
  refine ⟨rfl, ?_, h2, chunkList_flatten _ hC rows, chunkList_length _ hC rows, ?_, ?_⟩
  · show (loadGo ok (chunkList chunk_size rows) 0).written = rows.length
    rw [h1, chunkList_sum_sizes _ hC]
  · rw [List.all_eq_true]
    intro c hc
    rw [decide_eq_true_eq]
    exact chunkList_sizes _ rows c hc
  · rw [List.all_eq_true]
    intro c hc
    exact beq_iff_eq.mpr (chunkList_dropLast_sizes _ hC rows c hc)

/-- Witness for chunk_accounting: a fully successful load of two rows. -/
theorem chunk_accounting_witness :
    chunk_size = 5000 ∧
    (load (fun _ => Except.ok ()) [rowA, rowA]).written
      = ([rowA, rowA] : List TargetRow).length ∧
    (load (fun _ => Except.ok ()) [rowA, rowA]).error = none ∧
    (chunkList chunk_size [rowA, rowA]).flatten = [rowA, rowA] ∧
    (chunkList chunk_size [rowA, rowA]).length
      = (([rowA, rowA] : List TargetRow).length + chunk_size - 1) / chunk_size ∧
    ((chunkList chunk_size [rowA, rowA]).all
      fun c => decide (c.length ≤ chunk_size)) = true ∧
    ((chunkList chunk_size [rowA, rowA]).dropLast.all
      fun c => c.length == chunk_size) = true :=
  chunk_accounting (fun _ => Except.ok ()) [rowA, rowA] (fun _ => rfl)

/-- C2: if chunk writes 0..k-1 succeed and the write of chunk k fails, the
loader stops at chunk k — exactly the first k chunks are committed — and
returns written equal to the sum of the sizes of the chunks before chunk k
(0 when k = 0), with the error recorded; written is strictly less than the
number of rows attempted. -/
theorem chunk_failure_accounting (ok : Nat → Except String Unit)
    (rows : List TargetRow) (k : Nat) (e : String)
    (hk : k < (chunkList chunk_size rows).length)
    (hsucc : ∀ j, j < k → ok j = Except.ok ())
    (hfail : ok k = Except.error e) :
    (load ok rows).written
      = (((chunkList chunk_size rows).take k).map List.length).sum ∧
    (load ok rows).error = some e ∧
    (load ok rows).committed = (chunkList chunk_size rows).take k ∧
    (load ok rows).written < rows.length := by
  have hC : 0 < chunk_size := by decide
  obtain ⟨h1, h2, h3⟩ := loadGo_firstfail ok k (chunkList chunk_size rows) 0 e hk
    (by intro j hj; rw [Nat.zero_add]; exact hsucc j hj)
    (by rw [Nat.zero_add]; exact hfail)
  refine ⟨h1, h2, h3, ?_⟩
  show (loadGo ok (chunkList chunk_size rows) 0).written < rows.length
  rw [h1]
  have hkmap : k < ((chunkList chunk_size rows).map List.length).length := by
    rw [List.length_map]; exact hk
  have hchunk : ((chunkList chunk_size rows).map List.length)[k]
      = ((chunkList chunk_size rows)[k]).length := by
    simp
  have hone : 1 ≤ ((chunkList chunk_size rows).map List.length)[k] := by
    rw [hchunk]
    have hmem := List.getElem_mem hk
    have hne := chunkGo_mem_ne_nil chunk_size hC rows.length rows _ hmem
    have hp := List.length_pos.mpr hne
    omega
  have hstep := List.sum_take_succ ((chunkList chunk_size rows).map List.length) k hkmap
  have hle : (((chunkList chunk_size rows).map List.length).take (k + 1)).sum
      ≤ ((chunkList chunk_size rows).map List.length).sum := by
    have hsplit := List.sum_take_add_sum_drop
      ((chunkList chunk_size rows).map List.length) (k + 1)
    omega
  rw [List.map_take]
  have htotal : ((chunkList chunk_size rows).map List.length).sum = rows.length :=
    chunkList_sum_sizes _ hC rows
  omega

/-- Witness for chunk_failure_accounting: the first chunk write of a
one-row load fails, so written is 0 and nothing is committed. -/
theorem chunk_failure_accounting_witness :
    (load (fun _ => Except.error "boom") [rowA]).written
      = (((chunkList chunk_size [rowA]).take 0).map List.length).sum ∧
    (load (fun _ => Except.error "boom") [rowA]).error = some "boom" ∧
    (load (fun _ => Except.error "boom") [rowA]).committed
      = (chunkList chunk_size [rowA]).take 0 ∧
    (load (fun _ => Except.error "boom") [rowA]).written
      < ([rowA] : List TargetRow).length :=
  chunk_failure_accounting (fun _ => Except.error "boom") [rowA] 0 "boom"
    (by decide) (fun j hj => absurd hj (Nat.not_lt_zero j)) rfl

/-- C5: once the DELETE has succeeded, a fetch returning zero rows makes
the task produce rowsWritten 0 with no error, while a fetch error e makes
it produce rowsWritten 0 with the error attached; the two results are
distinct, so the outcomes are distinguishable. -/
theorem empty_vs_error_result (default_region : Option String) (o : Oracle)
    (record : WorkItem) (t : RawTable) (e : String)
    (hdel : o.deleteRes = Except.ok ()) :
    (o.fetchRes = Except.ok t → t.rows = [] →
      (fetch_and_insert_symbol default_region o record).1
        = RefreshResult.mk 0 none) ∧
    (o.fetchRes = Except.error e →
      (fetch_and_insert_symbol default_region o record).1
        = RefreshResult.mk 0 (some e)) ∧
    RefreshResult.mk 0 none ≠ RefreshResult.mk 0 (some e) := by
  refine ⟨?_, ?_, by simp⟩
  · intro hf hrows
    simp [fetch_and_insert_symbol, hdel, hf, hrows]
  · intro hf
    simp [fetch_and_insert_symbol, hdel, hf]

/-- Witness for empty_vs_error_result: an empty fetch and a failing fetch
on concrete oracles. -/
theorem empty_vs_error_result_witness :
    (fetch_and_insert_symbol (some "USA") oEmpty wiA).1 = RefreshResult.mk 0 none ∧
    (fetch_and_insert_symbol (some "USA") oFetchFail wiA).1
      = RefreshResult.mk 0 (some "net") ∧
    RefreshResult.mk 0 none ≠ RefreshResult.mk 0 (some "net") :=
  ⟨(empty_vs_error_result (some "USA") oEmpty wiA ⟨[], true⟩ "net" rfl).1 rfl rfl,
   (empty_vs_error_result (some "USA") oFetchFail wiA ⟨[], true⟩ "net" rfl).2.1 rfl,
   (empty_vs_error_result (some "USA") oFetchFail wiA ⟨[], true⟩ "net" rfl).2.2⟩

/-- C6: when the DELETE fails with e, the task returns rowsWritten 0 with
the error, and its external-call trace is exactly the delete attempt — the
fetch call and every chunk INSERT are skipped. -/
theorem delete_failure_skips_fetch_load (default_region : Option String)
    (o : Oracle) (record : WorkItem) (e : String)
    (hdel : o.deleteRes = Except.error e) :
    fetch_and_insert_symbol default_region o record
      = (RefreshResult.mk 0 (some e), [Action.deleteA]) := by
  simp [fetch_and_insert_symbol, hdel]

/-- Witness for delete_failure_skips_fetch_load on a concrete oracle whose
DELETE fails. -/
theorem delete_failure_skips_fetch_load_witness :
    fetch_and_insert_symbol (some "USA") oDeleteFail wiA
      = (RefreshResult.mk 0 (some "boom"), [Action.deleteA]) :=
  delete_failure_skips_fetch_load (some "USA") oDeleteFail wiA "boom" rfl

/-- C7: the task is a total function of the external-call outcomes — the
orchestrator always receives a well-formed result — and the error field of
that result equals the first exception any phase raises in program order
(specCapturedError): every post-delete exception is captured inside the
task, never propagated past the task boundary. -/
theorem task_captures_phase_errors (default_region : Option String) (o : Oracle)
    (record : WorkItem) :
    (fetch_and_insert_symbol default_region o record).1.error
      = specCapturedError default_region o record := by
  unfold fetch_and_insert_symbol specCapturedError
  cases o.deleteRes with
  | error e => rfl
  | ok u =>
    cases o.fetchRes with
    | error e => rfl
    | ok t =>
      by_cases h : t.rows.isEmpty
      · simp [h]
      · simp only [h, if_neg, Bool.false_eq_true, not_false_eq_true]
        exact loadGo_error_eq o.chunkOk _ 0

/-- C9: the count the task returns is a natural number (hence
non-negative) bounded by the number of rows the fetch returned, and the
delete-failure, fetch-failure and empty-fetch paths each return exactly
0. -/
theorem written_bounded_by_fetched (default_region : Option String) (o : Oracle)
    (record : WorkItem) :
    (fetch_and_insert_symbol default_region o record).1.rowsWritten
      ≤ fetchedCount o ∧
    (∀ e, o.deleteRes = Except.error e →
      (fetch_and_insert_symbol default_region o record).1.rowsWritten = 0) ∧
    (∀ e, o.fetchRes = Except.error e →
      (fetch_and_insert_symbol default_region o record).1.rowsWritten = 0) ∧
    (∀ t, o.fetchRes = Except.ok t → t.rows = [] →
      (fetch_and_insert_symbol default_region o record).1.rowsWritten = 0) := by
  have hC : 0 < chunk_size := by decide
  refine ⟨?_, ?_, ?_, ?_⟩
  · unfold fetch_and_insert_symbol fetchedCount
    cases o.deleteRes with
    | error e => simp
    | ok u =>
      cases o.fetchRes with
      | error e => simp
      | ok t =>
        by_cases h : t.rows.isEmpty
        · simp [h]
        · simp only [h, if_neg, Bool.false_eq_true, not_false_eq_true]
          have hle := loadGo_written_le o.chunkOk
            (chunkList chunk_size
              (reconcile record.symbol (getRegion record default_region) o.draws t)) 0
          rw [chunkList_sum_sizes _ hC, reconcile_length] at hle
          exact hle
  · intro e he; simp [fetch_and_insert_symbol, he]
  · intro e he
    cases hd : o.deleteRes with
    | error d => simp [fetch_and_insert_symbol, hd]
    | ok u => simp [fetch_and_insert_symbol, hd, he]
  · intro t ht hrows
    cases hd : o.deleteRes with
    | error d => simp [fetch_and_insert_symbol, hd]
    | ok u => simp [fetch_and_insert_symbol, hd, ht, hrows]

/-- Witness for written_bounded_by_fetched: the bound on a successful
one-row oracle and the three zero-returning paths on concrete oracles. -/
theorem written_bounded_by_fetched_witness :
    (fetch_and_insert_symbol (some "USA") oOk1 wiA).1.rowsWritten
      ≤ fetchedCount oOk1 ∧
    (fetch_and_insert_symbol (some "USA") oDeleteFail wiA).1.rowsWritten = 0 ∧
    (fetch_and_insert_symbol (some "USA") oFetchFail wiA).1.rowsWritten = 0 ∧
    (fetch_and_insert_symbol (some "USA") oEmpty wiA).1.rowsWritten = 0 :=
  ⟨(written_bounded_by_fetched (some "USA") oOk1 wiA).1,
   (written_bounded_by_fetched (some "USA") oDeleteFail wiA).2.1 "boom" rfl,
   (written_bounded_by_fetched (some "USA") oFetchFail wiA).2.2.1 "net" rfl,
   (written_bounded_by_fetched (some "USA") oEmpty wiA).2.2.2 ⟨[], true⟩ rfl rfl⟩

/-- C10: the configured default region is substituted only when the record
has no region key at all; a record whose region key is present — even
holding NULL — keeps that value: it is passed to the fetch call and forced
onto every reconciled (written) row, never replaced by the default. -/
theorem region_default_only_when_absent (default_region : Option String)
    (v : Option String) (record : WorkItem) (o : Oracle) (t : RawTable)
    (draws : Nat → Int) :
    (record.region = none → getRegion record default_region = default_region) ∧
    (record.region = some v →
      getRegion record default_region = v ∧
      (∀ row ∈ reconcile record.symbol (getRegion record default_region) draws t,
        row.region = v) ∧
      (o.deleteRes = Except.ok () →
        Action.fetchA v ∈ (fetch_and_insert_symbol default_region o record).2)) := by
  refine ⟨?_, ?_⟩
  · intro h; simp [getRegion, h]
  · intro h
    have hreg : getRegion record default_region = v := by simp [getRegion, h]
    refine ⟨hreg, ?_, ?_⟩
    · intro row hrow
      have hm := reconcileGo_mem record.symbol (getRegion record default_region)
        t.hasRecordNo draws t.rows 0 row hrow
      rw [hm.2.1, hreg]
    · intro hdel
      unfold fetch_and_insert_symbol
      rw [hdel, hreg]
      cases o.fetchRes with
      | error e => simp
      | ok tt =>
        by_cases ht : tt.rows.isEmpty
        · simp [ht]
        · simp [ht]

/-- Witness for region_default_only_when_absent: a record with a NULL
region key keeps NULL (the default "USA" is not substituted, and NULL is
what the fetch call receives), while a record without the key gets the
default. -/
theorem region_default_only_when_absent_witness :
    getRegion wiNull (some "USA") = none ∧
    Action.fetchA none ∈ (fetch_and_insert_symbol (some "USA") oOk1 wiNull).2 ∧
    getRegion wiA (some "USA") = some "USA" :=
  ⟨((region_default_only_when_absent (some "USA") none wiNull oOk1 ⟨[], true⟩
      (fun _ => 0)).2 rfl).1,
   ((region_default_only_when_absent (some "USA") none wiNull oOk1 ⟨[], true⟩
      (fun _ => 0)).2 rfl).2.2 rfl,
   (region_default_only_when_absent (some "USA") (some "USA") wiA oOk1 ⟨[], true⟩
      (fun _ => 0)).1 rfl⟩

theorem deleteRows_idem (sym : String) (a b : Int) (store : List TargetRow) :
    deleteRows sym a b (deleteRows sym a b store) = deleteRows sym a b store := by
  unfold deleteRows
  exact filter_self_filter _ store

theorem deleteRows_append (sym : String) (a b : Int)
    (s1 s2 : List TargetRow) :
    deleteRows sym a b (s1 ++ s2) = deleteRows sym a b s1 ++ deleteRows sym a b s2 := by
  unfold deleteRows
  exact List.filter_append s1 s2

theorem deleteRows_reconcile_nil (sym : String) (reg : Option String)
    (date_from date_to : Int) (t : RawTable) (draws : Nat → Int)
    (hdates : ∀ r ∈ t.rows, date_from ≤ r.date ∧ r.date ≤ date_to) :
    deleteRows sym date_from date_to (reconcile sym reg draws t) = [] := by
  unfold deleteRows
  rw [List.filter_eq_nil_iff]
  intro row hrow
  obtain ⟨hs, hr, raw, hraw, hd⟩ :=
    reconcileGo_mem sym reg t.hasRecordNo draws t.rows 0 row hrow
  have hw := hdates raw hraw
  simp [hs, hd, hw.1, hw.2]

theorem refreshStore_expand (sym : String) (reg : Option String)
    (date_from date_to : Int) (t : RawTable) (draws : Nat → Int)
    (store : List TargetRow) (h : t.rows.isEmpty = false) :
    refreshStore sym reg date_from date_to t draws store
      = (deleteRows sym date_from date_to store ++ reconcile sym reg draws t,
         (reconcile sym reg draws t).length) := by
  have hC : 0 < chunk_size := by decide
  obtain ⟨h1, h2, h3⟩ := loadGo_allok (fun _ => Except.ok ()) (fun _ => rfl)
    (chunkList chunk_size (reconcile sym reg draws t)) 0
  show (if t.rows.isEmpty then _ else _) = _
  rw [h]
  show (deleteRows sym date_from date_to store
        ++ (loadGo (fun _ => Except.ok ())
            (chunkList chunk_size (reconcile sym reg draws t)) 0).committed.flatten,
      (loadGo (fun _ => Except.ok ())
        (chunkList chunk_size (reconcile sym reg draws t)) 0).written) = _
  rw [h3, h1, chunkList_flatten _ hC, chunkList_sum_sizes _ hC]

/-- C3 (evidence for the code bug): on a two-row fetch lacking record_no,
with uuid4 hash draws 0 and 2147483647, the reconcile step assigns
record_no 0 to both rows — the generated identifiers collide, so they are
not unique across the row set; and with different draws the identifiers
change, so they derive from the random source, not from a deterministic
counter. -/
theorem record_no_collision :
    ((reconcile "A" none (fun i => if i = 0 then 0 else 2147483647)
        ⟨[⟨0, 0, ""⟩, ⟨1, 0, ""⟩], false⟩).map TargetRow.record_no) = [0, 0] ∧
    ¬ ((reconcile "A" none (fun i => if i = 0 then 0 else 2147483647)
        ⟨[⟨0, 0, ""⟩, ⟨1, 0, ""⟩], false⟩).map TargetRow.record_no).Nodup ∧
    ((reconcile "A" none (fun _ => 1)
        ⟨[⟨0, 0, ""⟩, ⟨1, 0, ""⟩], false⟩).map TargetRow.record_no) = [1, 1] := by
  decide

/-- C4 counterexample: a one-row provider response lacking record_no, with
the uuid4 hash draw 0 on the first run and 1 on the second run.  Running
the refresh twice leaves the store with a different row identifier than
running it once, so "the same row identifiers" fails; the row counts do
agree. -/
theorem refresh_twice_changes_record_nos :
    ((refreshStore "A" none 0 0 ⟨[⟨0, 0, ""⟩], false⟩ (fun _ => 1)
        (refreshStore "A" none 0 0 ⟨[⟨0, 0, ""⟩], false⟩ (fun _ => 0) []).1).1.map
      TargetRow.record_no)
      ≠ ((refreshStore "A" none 0 0 ⟨[⟨0, 0, ""⟩], false⟩ (fun _ => 0) []).1.map
        TargetRow.record_no) ∧
    (refreshStore "A" none 0 0 ⟨[⟨0, 0, ""⟩], false⟩ (fun _ => 1)
        (refreshStore "A" none 0 0 ⟨[⟨0, 0, ""⟩], false⟩ (fun _ => 0) []).1).1.length
      = (refreshStore "A" none 0 0 ⟨[⟨0, 0, ""⟩], false⟩ (fun _ => 0) []).1.length := by
  decide

/-- C4 (amended): for any symbol, window and provider response whose row
dates lie in the window, running the refresh twice in immediate succession
yields the same final row count and the same returned count as running it
once (the delete phase removes the first run's rows), and even the
identical final store whenever the provider supplies record_no; generated
identifiers are drawn fresh on each run and may differ. -/
theorem refresh_idempotent_row_count (sym : String) (reg : Option String)
    (date_from date_to : Int) (t : RawTable) (d1 d2 : Nat → Int)
    (store : List TargetRow)
    (hdates : ∀ r ∈ t.rows, date_from ≤ r.date ∧ r.date ≤ date_to) :
    (refreshStore sym reg date_from date_to t d2
        (refreshStore sym reg date_from date_to t d1 store).1).1.length
      = (refreshStore sym reg date_from date_to t d1 store).1.length ∧
    (refreshStore sym reg date_from date_to t d2
        (refreshStore sym reg date_from date_to t d1 store).1).2
      = (refreshStore sym reg date_from date_to t d1 store).2 ∧
    (t.hasRecordNo = true →
      (refreshStore sym reg date_from date_to t d2
          (refreshStore sym reg date_from date_to t d1 store).1).1
        = (refreshStore sym reg date_from date_to t d1 store).1) := by
  cases hE : t.rows.isEmpty with
  | true =>
    have h1 : refreshStore sym reg date_from date_to t d1 store
        = (deleteRows sym date_from date_to store, 0) := by
      simp [refreshStore, hE]
    have h2 : refreshStore sym reg date_from date_to t d2
          (deleteRows sym date_from date_to store)
        = (deleteRows sym date_from date_to
            (deleteRows sym date_from date_to store), 0) := by
      simp [refreshStore, hE]
    rw [h1, h2, deleteRows_idem]
    exact ⟨rfl, rfl, fun _ => rfl⟩
  | false =>
    rw [refreshStore_expand sym reg date_from date_to t d1 store hE,
      refreshStore_expand sym reg date_from date_to t d2 _ hE]
    have hd1 : deleteRows sym date_from date_to
          (deleteRows sym date_from date_to store ++ reconcile sym reg d1 t)
        = deleteRows sym date_from date_to store := by
      rw [deleteRows_append, deleteRows_idem,
        deleteRows_reconcile_nil sym reg date_from date_to t d1 hdates,
        List.append_nil]
    rw [hd1]
    refine ⟨?_, ?_, ?_⟩
    · simp [List.length_append, reconcile_length]
    · simp [reconcile_length]
    · intro hRec
      have hsame : reconcile sym reg d2 t = reconcile sym reg d1 t := by
        unfold reconcile
        rw [hRec]
        exact reconcileGo_hasRec sym reg d2 d1 t.rows 0 0
      rw [hsame]

/-- Witness for refresh_idempotent_row_count: a one-row provider response
carrying record_no, refreshed twice with different draw streams. -/
theorem refresh_idempotent_row_count_witness :
    (refreshStore "A" none 0 0 ⟨[rawA], true⟩ (fun _ => 1)
        (refreshStore "A" none 0 0 ⟨[rawA], true⟩ (fun _ => 0) []).1).1
      = (refreshStore "A" none 0 0 ⟨[rawA], true⟩ (fun _ => 0) []).1 ∧
    (refreshStore "A" none 0 0 ⟨[rawA], true⟩ (fun _ => 1)
        (refreshStore "A" none 0 0 ⟨[rawA], true⟩ (fun _ => 0) []).1).2
      = (refreshStore "A" none 0 0 ⟨[rawA], true⟩ (fun _ => 0) []).2 :=
  ⟨(refresh_idempotent_row_count "A" none 0 0 ⟨[rawA], true⟩ (fun _ => 0)
      (fun _ => 1) [] (by decide)).2.2 rfl,
   (refresh_idempotent_row_count "A" none 0 0 ⟨[rawA], true⟩ (fun _ => 0)
      (fun _ => 1) [] (by decide)).2.1⟩

/-- C8 counterexample: a task whose fetch returns 5001 rows and whose
second chunk INSERT fails is a failing task (its result carries the
error), yet it contributes 5000 — its committed first chunk — to the
orchestrator total, not zero. -/
theorem failing_task_nonzero_contribution :
    (fetch_and_insert_symbol (some "USA") oMid wiA).1.error = some "boom" ∧
    total_inserted [Except.ok (fetch_and_insert_symbol (some "USA") oMid wiA).1]
      = 5000 := by
  have hC : 0 < chunk_size := by decide
  have hlen : (reconcile "A" (some "USA") oMid.draws
      ⟨rawA :: List.replicate 5000 rawA, true⟩).length = 5001 := by
    rw [reconcile_length]
    rw [List.length_cons, List.length_replicate]
  have hnum : (chunkList chunk_size (reconcile "A" (some "USA") oMid.draws
      ⟨rawA :: List.replicate 5000 rawA, true⟩)).length = 2 := by
    rw [chunkList_length _ hC, hlen]
    decide
  obtain ⟨c0, c1, hcs⟩ := List.length_eq_two.mp hnum
  obtain ⟨hw, he, hcomm⟩ := loadGo_firstfail oMid.chunkOk 1
    (chunkList chunk_size (reconcile "A" (some "USA") oMid.draws
      ⟨rawA :: List.replicate 5000 rawA, true⟩)) 0 "boom"
    (by rw [hnum]; omega)
    (by
      intro j hj
      have hj0 : j = 0 := by omega
      subst hj0
      rfl)
    rfl
  have hc0 : c0.length = 5000 := by
    have hmem : c0 ∈ (chunkList chunk_size (reconcile "A" (some "USA") oMid.draws
        ⟨rawA :: List.replicate 5000 rawA, true⟩)).dropLast := by
      rw [hcs]
      simp [List.dropLast]
    exact chunkList_dropLast_sizes _ hC _ c0 hmem
  have hsum : (((chunkList chunk_size (reconcile "A" (some "USA") oMid.draws
      ⟨rawA :: List.replicate 5000 rawA, true⟩)).take 1).map List.length).sum
      = 5000 := by
    rw [hcs]
    simp [hc0]
  have hd : oMid.deleteRes = Except.ok () := rfl
  have hf : oMid.fetchRes = Except.ok ⟨rawA :: List.replicate 5000 rawA, true⟩ := rfl
  have hsym : wiA.symbol = "A" := rfl
  have hreg : getRegion wiA (some "USA") = some "USA" := rfl
  have htaskErr : (fetch_and_insert_symbol (some "USA") oMid wiA).1.error
      = (load oMid.chunkOk (reconcile "A" (some "USA") oMid.draws
          ⟨rawA :: List.replicate 5000 rawA, true⟩)).error := by
    simp only [fetch_and_insert_symbol, hd, hf, hsym, hreg, List.isEmpty_cons,
      Bool.false_eq_true, if_false]
  have htaskWritten : (fetch_and_insert_symbol (some "USA") oMid wiA).1.rowsWritten
      = (load oMid.chunkOk (reconcile "A" (some "USA") oMid.draws
          ⟨rawA :: List.replicate 5000 rawA, true⟩)).written := by
    simp only [fetch_and_insert_symbol, hd, hf, hsym, hreg, List.isEmpty_cons,
      Bool.false_eq_true, if_false]
  have hloadGo : load oMid.chunkOk (reconcile "A" (some "USA") oMid.draws
        ⟨rawA :: List.replicate 5000 rawA, true⟩)
      = loadGo oMid.chunkOk (chunkList chunk_size
          (reconcile "A" (some "USA") oMid.draws
            ⟨rawA :: List.replicate 5000 rawA, true⟩)) 0 := by
    simp only [load]
  constructor
  · rw [htaskErr, hloadGo]
    exact he
  · have hfold : total_inserted
        [Except.ok (fetch_and_insert_symbol (some "USA") oMid wiA).1]
        = 0 + (fetch_and_insert_symbol (some "USA") oMid wiA).1.rowsWritten := rfl
    rw [hfold, htaskWritten, hloadGo, hw, hsum]

/-- C8 (amended): the orchestrator total always equals the sum of the
per-symbol contributions, where a task that returned contributes exactly
its rowsWritten (for a mid-load failure, its partial committed count) and
a task whose future raised contributes 0; an error outcome anywhere in the
completion order does not abort the accumulation of the others. -/
theorem total_is_sum_of_written (outs1 outs2 : List (Except String RefreshResult))
    (e : String) :
    (∀ outs, total_inserted outs = (outs.map contribution).sum) ∧
    total_inserted (outs1 ++ Except.error e :: outs2)
      = total_inserted outs1 + total_inserted outs2 := by
  refine ⟨total_inserted_eq_sum, ?_⟩
  rw [total_inserted_eq_sum, total_inserted_eq_sum, total_inserted_eq_sum]
  simp [contribution]

end IVS
